import Mathlib

/-!
Verification of the probability-reduction pipeline of the
token-classification / object-detection training notebooks.

The development shallowly embeds the deterministic data-transformation
routines of the notebooks: the class remapper (merge_probs and its call
site), the token aligner (character substitutions and the double-quote
split loop), the subword-to-word probability aggregator (get_pred_probs),
the k-fold partitioning, the CoNLL word normalization in readfile, and
the Detectron2 prediction formatter.  Probabilities are modelled as exact
rationals; numpy arrays become lists of rows.
-/

/-! ## Characters used by the aligner (apostrophe, double quote, backtick, hash) -/

def aposChar : Char := Char.ofNat 39

def quoteChar : Char := Char.ofNat 34

def backChar : Char := Char.ofNat 96

def hashChar : Char := Char.ofNat 35

def aposStr : String := String.mk [aposChar]

def quoteStr : String := String.mk [quoteChar]

/-! ## Class Remapper (merge_probs)

The body of merge_probs is imported from a library and is not part of the
repository sources; only its call site and its documented contract appear
in the notebook. -/

/-- Modelled from the spec: number of coarse classes K of merge_probs,
the number of distinct non-negative values in the class map. -/
def numCoarse (maps : List Int) : Nat :=
  ((maps.filter (fun v => 0 ≤ v)).dedup).length

/-- Modelled from the spec: coarse column j of one probability row,
the sum over all fine classes mapped to j of the row entries. -/
def colSum (maps : List Int) (row : List ℚ) (j : Nat) : ℚ :=
  (((maps.zip row).filter (fun p => p.1 = (j : Int))).map (fun p => p.2)).sum

/-- Modelled from the spec: retained probability mass of a row after
dropping the fine classes mapped to a negative sentinel. -/
def retainedMass (maps : List Int) (row : List ℚ) : ℚ :=
  (((maps.zip row).filter (fun p => 0 ≤ p.1)).map (fun p => p.2)).sum

/-- Modelled from the spec: whether the class map drops any fine class
(contains a negative sentinel). -/
def hasDropped (maps : List Int) : Bool :=
  maps.any (fun v => v < 0)

/-- Modelled from the spec: merge_probs on a single probability row.
Column j sums the fine columns mapped to j; when the map drops some
class, the row is divided by its own sum (rational division is total:
division by zero yields zero, mirroring the absence of any guard). -/
def mergeRow (maps : List Int) (row : List ℚ) : List ℚ :=
  let base := (List.range (numCoarse maps)).map (colSum maps row)
  if hasDropped maps then base.map (fun x => x / base.sum) else base

/-- Modelled from the spec: merge_probs on an (N x L) probability matrix. -/
def mergeProbs (probs : List (List ℚ)) (maps : List Int) : List (List ℚ) :=
  probs.map (mergeRow maps)

/-- The merge stage exactly as invoked by the notebook: merge_probs is
applied to every sentence matrix by a plain list comprehension, with no
guard, no try block, and no error value in sight.  The Except codomain
records that no error channel is ever used. -/
def mergePipeline (sentenceProbs : List (List (List ℚ))) (maps : List Int) :
    Except String (List (List (List ℚ))) :=
  Except.ok (sentenceProbs.map (fun p => mergeProbs p maps))

/-! ## Token Aligner: substitutions and the double-quote split loop -/

/-- Whether the pattern is an initial segment of the character list. -/
def leadsWith : List Char → List Char → Bool
  | [], _ => true
  | _ :: _, [] => false
  | p :: ps, c :: cs => p = c && leadsWith ps cs

/-- Whether the pattern occurs as a contiguous subsequence. -/
def hasSubSeq (pat : List Char) : List Char → Bool
  | [] => leadsWith pat []
  | c :: cs => leadsWith pat (c :: cs) || hasSubSeq pat cs

/-- Replace every (leftmost, non-overlapping) occurrence of the pattern,
driven by a fuel argument bounding the number of characters consumed. -/
def replGo (pat rep : List Char) : Nat → List Char → List Char
  | 0, l => l
  | fuel + 1, l =>
    match l with
    | [] => []
    | c :: cs =>
      if pat ≠ [] && leadsWith pat (c :: cs) then
        rep ++ replGo pat rep fuel (cs.drop (pat.length - 1))
      else
        c :: replGo pat rep fuel cs

/-- Replace every occurrence of a pattern in a character list. -/
def replaceAllChars (pat rep l : List Char) : List Char :=
  replGo pat rep l.length l

/-- The substitution table of the notebook: hash markers deleted, a pair
of backticks and a pair of apostrophes each rewritten to a double quote. -/
def replaceTable : List (List Char × List Char) :=
  [([hashChar], []),
   ([backChar, backChar], [quoteChar]),
   ([aposChar, aposChar], [quoteChar])]

/-- Modelled from the spec: process_token (imported from a library, body
not in the sources) applies each substitution pair of the table in turn
to a subword token. -/
def processToken (table : List (List Char × List Char)) (tok : List Char) :
    List Char :=
  table.foldl (fun t pr => replaceAllChars pr.1 pr.2 t) tok

/-- The double-quote split loop of the notebook: walking tokens and
probability rows in lockstep, a double-quote token becomes two apostrophe
tokens with its probability row appended twice, any other token and its
row are appended once, unchanged. -/
def quoteLoop : List String → List (List ℚ) → List String × List (List ℚ)
  | [], _ => ([], [])
  | _ :: _, [] => ([], [])
  | t :: ts, p :: ps =>
    let rest := quoteLoop ts ps
    if t = quoteStr then
      (aposStr :: aposStr :: rest.1, p :: p :: rest.2)
    else
      (t :: rest.1, p :: rest.2)

/-- The guard of the split loop: the loop runs only for sentences whose
concatenated original words contain two consecutive apostrophes. -/
def applyQuoteStage (words tokens : List String) (probs : List (List ℚ)) :
    List String × List (List ℚ) :=
  if hasSubSeq [aposChar, aposChar] (String.join words).data then
    quoteLoop tokens probs
  else
    (tokens, probs)

/-- The whole alignment stage as the notebook runs it: substitutions are
applied to every token, then the quote split; the result is always
returned, no check compares the concatenations and nothing raises. -/
def alignStage (words tokens : List String) (probs : List (List ℚ)) :
    Except String (List String × List (List ℚ)) :=
  let toks := tokens.map (fun t => String.mk (processToken replaceTable t.data))
  Except.ok (applyQuoteStage words toks probs)

/-! ## CoNLL readfile word normalization -/

/-- Python str.isupper looks only at cased characters. -/
def pyIsCased (c : Char) : Bool := c.isUpper || c.isLower

/-- Python str.isupper: some cased character, and every cased character
uppercase. -/
def pyIsUpper (s : List Char) : Bool :=
  s.any pyIsCased && s.all (fun c => !pyIsCased c || c.isUpper)

/-- The word transformation of readfile: a nonempty word whose first
character is alphabetic and which is entirely uppercase keeps its first
character and lowercases the rest; any other word is kept verbatim. -/
def normalizeWord (w : String) : String :=
  match w.data with
  | [] => w
  | c :: cs =>
    if c.isAlpha && pyIsUpper (c :: cs) then
      String.mk (c :: cs.map Char.toLower)
    else w

/-- Whether the first character of a word is alphabetic. -/
def firstAlpha (w : String) : Bool :=
  match w.data with
  | [] => false
  | c :: _ => c.isAlpha

/-- The claim's wording of the stored word: keep the first character and
lowercase all remaining characters. -/
def keepHeadLowerRest (w : String) : String :=
  match w.data with
  | [] => w
  | c :: cs => String.mk (c :: cs.map Char.toLower)

/-- Restatement of the readfile transformation in the claim's words: an
entirely-uppercase word with alphabetic first character keeps its head
and lowercases the tail; every other word is stored verbatim. -/
def normalizeWordSpec (w : String) : String :=
  if pyIsUpper w.data && firstAlpha w then keepHeadLowerRest w else w

/-- The word readfile stores for one line: the first separator-split
field, normalized. -/
def readfileStoredWord (sep line : String) : String :=
  normalizeWord ((line.splitOn sep).headD (String.mk []))

/-! ## Subword Aggregator (get_pred_probs)

The body of get_pred_probs is imported from a utility module that is not
part of the sources; the aggregator is modelled from the spec: character
spans are computed for subwords and words in the shared character stream,
every subword whose span overlaps a word contributes its full probability
vector to that word, and each word averages its contributed vectors. -/

/-- Character spans of a list of segment lengths, starting at cursor c:
segment i covers the half-open interval from the cumulative length before
it to the cumulative length including it. -/
def spansFrom (c : Nat) : List Nat → List (Nat × Nat)
  | [] => []
  | n :: ns => (c, c + n) :: spansFrom (c + n) ns

/-- Modelled from the spec: character spans of the subword tokens in the
concatenated character stream. -/
def tokenSpans (tokens : List String) : List (Nat × Nat) :=
  spansFrom 0 (tokens.map String.length)

/-- Modelled from the spec: character spans of the original words in the
concatenated character stream. -/
def wordSpans (words : List String) : List (Nat × Nat) :=
  spansFrom 0 (words.map String.length)

/-- Two half-open character spans overlap (share at least a character). -/
def overlapsB (a b : Nat × Nat) : Bool :=
  decide (a.1 < b.2) && decide (b.1 < a.2)

/-- Modelled from the spec: the probability vectors of all subwords whose
character span overlaps the given word span, each contributed whole. -/
def contributorsOf (probs : List (List ℚ)) (tokens : List String)
    (w : Nat × Nat) : List (List ℚ) :=
  (((tokenSpans tokens).zip probs).filter (fun sp => overlapsB sp.1 w)).map
    (fun sp => sp.2)

/-- Elementwise sum of a list of vectors. -/
def vecSum : List (List ℚ) → List ℚ
  | [] => []
  | v :: vs =>
    match vs with
    | [] => v
    | _ :: _ => List.zipWith (· + ·) v (vecSum vs)

/-- Unweighted elementwise arithmetic mean of a list of vectors. -/
def avgVec (vs : List (List ℚ)) : List ℚ :=
  (vecSum vs).map (fun x => x / (vs.length : ℚ))

/-- Elementwise mean of a list of vectors weighted by natural weights. -/
def wAvgVec (ps : List (Nat × List ℚ)) : List ℚ :=
  (vecSum (ps.map (fun p => p.2.map (fun x => x * (p.1 : ℚ))))).map
    (fun x => x / ((ps.map (fun p => p.1)).sum : ℚ))

/-- Modelled from the spec: get_pred_probs with its averaging policy made
explicit.  With weighted = false (the default) each word receives the
unweighted mean of the vectors of all overlapping subwords; with
weighted = true each contributing vector is weighted by its subword's
character length. -/
def getPredProbsW (weighted : Bool) (probs : List (List ℚ))
    (tokens words : List String) : List (List ℚ) :=
  (wordSpans words).map (fun w =>
    if weighted then
      wAvgVec ((((tokenSpans tokens).zip probs).filter
        (fun sp => overlapsB sp.1 w)).map (fun sp => (sp.1.2 - sp.1.1, sp.2)))
    else
      avgVec (contributorsOf probs tokens w))

/-- Modelled from the spec: get_pred_probs as invoked by the notebook,
with the default uniform averaging policy. -/
def getPredProbs (probs : List (List ℚ)) (tokens words : List String) :
    List (List ℚ) :=
  getPredProbsW false probs tokens words

/-! ## K-fold partitioning

The notebook partitions dataset indices with KFold(n_splits = k) without
shuffling; modelled from the spec as the deterministic contiguous split:
the first n mod k validation folds hold n / k + 1 items, the rest n / k. -/

/-- Modelled from the spec: size of validation fold i when n items are
split into k folds. -/
def foldSize (n k i : Nat) : Nat :=
  n / k + (if i < n % k then 1 else 0)

/-- Modelled from the spec: first index of validation fold i. -/
def foldStart (n k : Nat) : Nat → Nat
  | 0 => 0
  | i + 1 => foldStart n k i + foldSize n k i

/-- Modelled from the spec: whether dataset index x lands in validation
fold i. -/
def inFold (n k i x : Nat) : Bool :=
  decide (foldStart n k i ≤ x) && decide (x < foldStart n k (i + 1))

/-! ## Detectron2 prediction formatting -/

/-- The fields of a Detectron2 Instances object that the formatter reads:
a predicted class, a score and a four-coordinate bounding box per
predicted instance. -/
structure DetInstances where
  predClasses : List Nat
  scores : List ℚ
  boxes : List (List ℚ)

/-- Apply a function to the element at an index, leaving other elements
(and out-of-range indices) unchanged. -/
def modifyAt (f : α → α) : Nat → List α → List α
  | _, [] => []
  | 0, a :: as => f a :: as
  | n + 1, a :: as => a :: modifyAt f n as

/-- One step of the formatter loop: append a row to the bucket of its
predicted class. -/
def addToBuckets (buckets : List (List (List ℚ))) (c : Nat)
    (row : List ℚ) : List (List (List ℚ)) :=
  modifyAt (fun b => b ++ [row]) c buckets

/-- The (class, box-coordinates-plus-score) rows of the instances, in
instance order: row i is boxes[i] with scores[i] appended. -/
def detRows (inst : DetInstances) : List (Nat × List ℚ) :=
  (inst.predClasses.zip (inst.boxes.zip inst.scores)).map
    (fun p => (p.1, p.2.1 ++ [p.2.2]))

/-- The formatter loop: walk the instance rows, appending each to the
bucket of its predicted class. -/
def fillBuckets (buckets : List (List (List ℚ))) :
    List (Nat × List ℚ) → List (List (List ℚ))
  | [] => buckets
  | (c, row) :: rest => fillBuckets (addToBuckets buckets c row) rest

/-- format_detectron2_predictions: one bucket per class, each instance's
box coordinates and score appended to its class bucket, then each bucket
paired with its numpy shape width: an empty bucket is reshaped to width
numClasses, a nonempty one has rows of width 5. -/
def formatDetectron2Predictions (inst : DetInstances) (numClasses : Nat) :
    List (List (List ℚ) × Nat) :=
  (fillBuckets (List.replicate numClasses []) (detRows inst)).map
    (fun b => if b = [] then ([], numClasses) else (b, 5))

/-- The claim's wording of a class's rows: the instance rows predicted
for class j, in instance order. -/
def classRows (inst : DetInstances) (j : Nat) : List (List ℚ) :=
  ((detRows inst).filter (fun p => p.1 = j)).map (fun p => p.2)

/-! ## Helper lemmas -/

theorem rangeMapSum (f : Nat → ℚ) (K : Nat) :
    ((List.range K).map f).sum = ∑ j in Finset.range K, f j := by
  induction K with
  | zero => simp
  | succ n ih => simp [List.range_succ, Finset.sum_range_succ, ih]

theorem sum_map_div (l : List ℚ) (s : ℚ) :
    (l.map (fun x => x / s)).sum = l.sum / s := by
  induction l with
  | nil => simp
  | cons a t ih => simp [ih, add_div]

theorem pairSumSplit (ps : List (Int × ℚ)) (K : Nat)
    (h : ∀ p ∈ ps, 0 ≤ p.1 → p.1 < (K : Int)) :
    ((List.range K).map (fun (j : Nat) =>
      ((ps.filter (fun p => p.1 = (j : Int))).map (fun p => p.2)).sum)).sum
    = ((ps.filter (fun p => 0 ≤ p.1)).map (fun p => p.2)).sum := by
  induction ps with
  | nil => simp
  | cons hd tl ih =>
    have hfun : ∀ j : Nat,
        (((hd :: tl).filter (fun p => p.1 = (j : Int))).map (fun p => p.2)).sum
        = (if hd.1 = (j : Int) then hd.2 else 0)
          + ((tl.filter (fun p => p.1 = (j : Int))).map (fun p => p.2)).sum := by
      intro j
      by_cases hc : hd.1 = (j : Int) <;> simp [List.filter_cons, hc]
    have htl : ∀ p ∈ tl, 0 ≤ p.1 → p.1 < (K : Int) := by
      intro p hp
      exact h p (List.mem_cons_of_mem _ hp)
    rw [List.map_congr_left (fun j _ => hfun j), rangeMapSum,
      Finset.sum_add_distrib]
    rw [← rangeMapSum (fun (j : Nat) =>
      ((tl.filter (fun p => p.1 = (j : Int))).map (fun p => p.2)).sum) K,
      ih htl]
    by_cases h0 : 0 ≤ hd.1
    · have hm : hd.1 = ((hd.1.toNat : Nat) : Int) := (Int.toNat_of_nonneg h0).symm
      have hmk : hd.1.toNat < K := by
        have := h hd (List.mem_cons_self _ _) h0
        omega
      have hsum : (∑ j in Finset.range K,
          if hd.1 = (j : Int) then hd.2 else 0) = hd.2 := by
        rw [hm]
        simp only [Int.natCast_inj]
        rw [Finset.sum_ite_eq (Finset.range K) hd.1.toNat (fun _ => hd.2)]
        simp [Finset.mem_range, hmk]
      rw [hsum, List.filter_cons, if_pos (by simpa using h0)]
      simp
    · have hne : ∀ j : Nat, ¬ hd.1 = (j : Int) := by
        intro j hj
        exact h0 (hj ▸ Int.natCast_nonneg j)
      have hsum : (∑ j in Finset.range K,
          if hd.1 = (j : Int) then hd.2 else 0) = 0 := by
        apply Finset.sum_eq_zero
        intro j _
        simp [hne j]
      rw [hsum, List.filter_cons, if_neg (by simpa using h0)]
      simp

theorem baseSumEqRetained (maps : List Int) (row : List ℚ)
    (hcanon : ∀ v ∈ maps, 0 ≤ v → v < (numCoarse maps : Int)) :
    ((List.range (numCoarse maps)).map (colSum maps row)).sum
      = retainedMass maps row := by
  have h : ∀ p ∈ maps.zip row, 0 ≤ p.1 → p.1 < (numCoarse maps : Int) := by
    intro p hp hp0
    exact hcanon p.1 (List.of_mem_zip hp).1 hp0
  simpa [colSum, retainedMass] using
    pairSumSplit (maps.zip row) (numCoarse maps) h

theorem mergeRowBranch (maps : List Int) (row : List ℚ)
    (hcanon : ∀ v ∈ maps, 0 ≤ v → v < (numCoarse maps : Int)) :
    mergeRow maps row =
      (List.range (numCoarse maps)).map (fun (j : Nat) =>
        if hasDropped maps then colSum maps row j / retainedMass maps row
        else colSum maps row j) := by
  unfold mergeRow
  by_cases hd : hasDropped maps
  · simp only [hd, if_true, List.map_map]
    simp only [baseSumEqRetained maps row hcanon, Function.comp_def]
  · simp only [hd, if_false, Bool.false_eq_true]

/-- C1: merge_probs maps an (N x L) probability matrix and a length-L
class map to an (N x K) matrix, K the number of distinct non-negative map
values; output column j is the sum of the input columns mapped to j, and
when the map drops some class each output row is divided by its post-drop
sum, so that (for nonzero retained mass) every output row sums to 1. -/
theorem mergeProbs_colsum_renorm (probs : List (List ℚ)) (maps : List Int)
    (hcanon : ∀ v ∈ maps, 0 ≤ v → v < (numCoarse maps : Int)) :
    (mergeProbs probs maps).length = probs.length
    ∧ (∀ out ∈ mergeProbs probs maps, out.length = numCoarse maps)
    ∧ (∀ row ∈ probs, mergeRow maps row =
        (List.range (numCoarse maps)).map (fun (j : Nat) =>
          if hasDropped maps then colSum maps row j / retainedMass maps row
          else colSum maps row j))
    ∧ (hasDropped maps = true → ∀ row ∈ probs, retainedMass maps row ≠ 0 →
        (mergeRow maps row).sum = 1) := by
  refine ⟨by simp [mergeProbs], ?_, ?_, ?_⟩
  · intro out hout
    simp only [mergeProbs, List.mem_map] at hout
    obtain ⟨row, _, rfl⟩ := hout
    rw [mergeRowBranch maps row hcanon]
    simp
  · intro row _
    exact mergeRowBranch maps row hcanon
  · intro hd row _ hr0
    unfold mergeRow
    simp only [hd, if_true]
    rw [sum_map_div, baseSumEqRetained maps row hcanon, div_self hr0]

theorem mergeProbs_colsum_renorm_witness :
    mergeRow [-1, 0, 1, 1] [1/2, 1/4, 1/8, 1/8] =
      (List.range (numCoarse [-1, 0, 1, 1])).map (fun (j : Nat) =>
        if hasDropped [-1, 0, 1, 1] then
          colSum [-1, 0, 1, 1] [1/2, 1/4, 1/8, 1/8] j
            / retainedMass [-1, 0, 1, 1] [1/2, 1/4, 1/8, 1/8]
        else colSum [-1, 0, 1, 1] [1/2, 1/4, 1/8, 1/8] j)
    ∧ (mergeRow [-1, 0, 1, 1] [1/2, 1/4, 1/8, 1/8]).sum = 1 := by
  have h := mergeProbs_colsum_renorm [[1/2, 1/4, 1/8, 1/8]] [-1, 0, 1, 1]
    (by decide)
  exact ⟨h.2.2.1 _ (by simp), h.2.2.2 (by decide) _ (by simp)
    (by norm_num [retainedMass])⟩

/-- C2 counterexample: a row whose whole mass sits on a dropped class.
The merge stage as invoked by the notebook raises nothing: it returns a
value (the zero row, since in the exact-rational model division by the
zero retained mass yields zero) instead of an explicit error. -/
theorem merge_zero_mass_no_error :
    mergePipeline [[[1, 0]]] [-1, 0] = Except.ok [[[0]]]
    ∧ retainedMass [-1, 0] [1, 0] = 0 := by
  constructor
  · norm_num [mergePipeline, mergeProbs, mergeRow, numCoarse, colSum,
      hasDropped, List.range_succ]
  · norm_num [retainedMass]

/-- C2 (amended): the pipeline never raises on zero retained mass: the
merge stage returns a value on every input, and a dropped-class row with
zero retained mass is divided anyway, yielding the zero row in the
exact-rational model (numpy emits NaNs) rather than an explicit
RenormalizationError. -/
theorem merge_zero_mass_divides (sentenceProbs : List (List (List ℚ)))
    (maps : List Int) (row : List ℚ)
    (hcanon : ∀ v ∈ maps, 0 ≤ v → v < (numCoarse maps : Int))
    (hd : hasDropped maps = true) (h0 : retainedMass maps row = 0) :
    (mergePipeline sentenceProbs maps).isOk = true
    ∧ mergeRow maps row = List.replicate (numCoarse maps) 0 := by
  refine ⟨rfl, ?_⟩
  unfold mergeRow
  simp only [hd, if_true]
  rw [baseSumEqRetained maps row hcanon, h0]
  rw [List.map_map]
  have : ((fun x => x / (0 : ℚ)) ∘ colSum maps row) = fun _ => (0 : ℚ) := by
    funext j
    simp
  rw [this, List.map_const', List.length_range]

theorem merge_zero_mass_divides_witness :
    (mergePipeline [[[1, 0]]] [-1, 0]).isOk = true
    ∧ mergeRow [-1, 0] [1, 0] = List.replicate (numCoarse [-1, 0]) 0 := by
  exact merge_zero_mass_divides [[[1, 0]]] [-1, 0] [1, 0] (by decide)
    (by decide) (by norm_num [retainedMass])

/-- C3 counterexample: a sentence whose token characters cannot be
reconciled with its word characters.  The alignment stage still returns a
value (no AlignmentError is raised) and the post-alignment concatenation
of subword characters differs from the concatenation of word characters,
refuting both directions of the claim. -/
theorem align_mismatch_no_error :
    alignStage ["ab"] ["xy"] [[1]] = Except.ok (["xy"], [[1]])
    ∧ ((["xy"] : List String).map String.data).flatten
      ≠ ((["ab"] : List String).map String.data).flatten := by
  constructor
  · simp [alignStage, applyQuoteStage, processToken, replaceTable,
      replaceAllChars, replGo, leadsWith, hasSubSeq, hashChar, backChar,
      aposChar, quoteChar, String.join]
  · decide

/-- C3 (amended): the alignment stage is a total function with no error
path: it applies the substitution table to every token, runs the quote
split, and returns the result for every sentence; no AlignmentError
exists, and a sentence whose concatenations still mismatch is processed
silently rather than aborted or flagged. -/
theorem align_never_raises (words tokens : List String)
    (probs : List (List ℚ)) :
    alignStage words tokens probs = Except.ok (applyQuoteStage words
      (tokens.map (fun t => String.mk (processToken replaceTable t.data)))
      probs) := rfl

theorem quoteLoopFlat (ts : List String) (ps : List (List ℚ))
    (hlen : ts.length = ps.length) :
    quoteLoop ts ps =
      (ts.flatMap (fun t => if t = quoteStr then [aposStr, aposStr] else [t]),
       (ts.zip ps).flatMap
         (fun tp => if tp.1 = quoteStr then [tp.2, tp.2] else [tp.2])) := by
  induction ts generalizing ps with
  | nil =>
    cases ps with
    | nil => rfl
    | cons p ps => simp at hlen
  | cons t ts ih =>
    cases ps with
    | nil => simp at hlen
    | cons p ps =>
      have h : ts.length = ps.length := by simpa using hlen
      by_cases ht : t = quoteStr <;>
        simp [quoteLoop, ht, ih ps h]

/-- C4: for a sentence whose original words contain two consecutive
apostrophe characters (the situation in which the tokenizer collapsed
them into one double-quote token), the aligner replaces each double-quote
token by two apostrophe tokens duplicating its probability row, and
leaves every other token and its probability row unchanged and in
order. -/
theorem quote_split_duplicates (words tokens : List String)
    (probs : List (List ℚ))
    (hcollapse : hasSubSeq [aposChar, aposChar] (String.join words).data = true)
    (hlen : tokens.length = probs.length) :
    applyQuoteStage words tokens probs =
      (tokens.flatMap
         (fun t => if t = quoteStr then [aposStr, aposStr] else [t]),
       (tokens.zip probs).flatMap
         (fun tp => if tp.1 = quoteStr then [tp.2, tp.2] else [tp.2])) := by
  unfold applyQuoteStage
  rw [if_pos hcollapse]
  exact quoteLoopFlat tokens probs hlen

theorem quote_split_duplicates_witness :
    applyQuoteStage [String.mk [aposChar, aposChar]]
        [quoteStr, String.mk ['a']] [[1], [2]] =
      ([quoteStr, String.mk ['a']].flatMap
         (fun t => if t = quoteStr then [aposStr, aposStr] else [t]),
       ([quoteStr, String.mk ['a']].zip [[1], [2]]).flatMap
         (fun tp => if tp.1 = quoteStr then [tp.2, tp.2] else [tp.2])) :=
  quote_split_duplicates [String.mk [aposChar, aposChar]]
    [quoteStr, String.mk ['a']] [[1], [2]] (by decide) (by decide)

theorem normalizeWordAgrees (w : String) :
    normalizeWord w = normalizeWordSpec w := by
  obtain ⟨l⟩ := w
  cases l with
  | nil => rfl
  | cons c cs =>
    by_cases h1 : c.isAlpha <;> by_cases h2 : pyIsUpper (c :: cs) <;>
      simp [normalizeWord, normalizeWordSpec, firstAlpha, keepHeadLowerRest,
        h1, h2]

/-- C9: the word readfile stores for a line is the first field of the
line with the claim's normalization applied: an entirely uppercase word
whose first character is alphabetic keeps its first character and
lowercases the rest (JAPAN becomes Japan), and every other word is stored
verbatim, so the stored words may differ from the raw input characters. -/
theorem readfile_word_normalization :
    (∀ sep line : String, readfileStoredWord sep line
        = normalizeWordSpec ((line.splitOn sep).headD (String.mk [])))
    ∧ (∀ w : String, normalizeWord w = normalizeWordSpec w)
    ∧ normalizeWord "JAPAN" = "Japan"
    ∧ normalizeWord "JAPAN" ≠ "JAPAN" := by
  refine ⟨fun sep line => normalizeWordAgrees _, normalizeWordAgrees, ?_, ?_⟩
  · decide
  · decide

theorem modifyAt_length (f : α → α) (c : Nat) (l : List α) :
    (modifyAt f c l).length = l.length := by
  induction l generalizing c with
  | nil => cases c <;> rfl
  | cons a t ih =>
    cases c with
    | zero => rfl
    | succ n => simp [modifyAt, ih]

theorem modifyAt_getD_ne (f : α → α) (c j : Nat) (l : List α) (d : α)
    (hne : c ≠ j) : (modifyAt f c l).getD j d = l.getD j d := by
  induction l generalizing c j with
  | nil => cases c <;> rfl
  | cons a t ih =>
    cases c with
    | zero =>
      cases j with
      | zero => exact absurd rfl hne
      | succ m => rfl
    | succ n =>
      cases j with
      | zero => rfl
      | succ m =>
        simp only [modifyAt, List.getD_cons_succ]
        exact ih n m (by omega)

theorem modifyAt_getD_eq (f : α → α) (c : Nat) (l : List α) (d : α)
    (hc : c < l.length) : (modifyAt f c l).getD c d = f (l.getD c d) := by
  induction l generalizing c with
  | nil => simp at hc
  | cons a t ih =>
    cases c with
    | zero => rfl
    | succ n =>
      simp only [modifyAt, List.getD_cons_succ]
      exact ih n (by simpa using hc)

theorem fillBuckets_length (rows : List (Nat × List ℚ))
    (buckets : List (List (List ℚ))) :
    (fillBuckets buckets rows).length = buckets.length := by
  induction rows generalizing buckets with
  | nil => rfl
  | cons hd rest ih =>
    obtain ⟨c, row⟩ := hd
    simp [fillBuckets, ih, addToBuckets, modifyAt_length]

theorem fillBuckets_getD (rows : List (Nat × List ℚ))
    (buckets : List (List (List ℚ))) (j : Nat)
    (hin : ∀ p ∈ rows, p.1 < buckets.length) :
    (fillBuckets buckets rows).getD j []
      = buckets.getD j [] ++ ((rows.filter (fun p => p.1 = j)).map
          (fun p => p.2)) := by
  induction rows generalizing buckets with
  | nil => simp [fillBuckets]
  | cons hd rest ih =>
    obtain ⟨c, row⟩ := hd
    have hrest : ∀ p ∈ rest, p.1 < (addToBuckets buckets c row).length := by
      intro p hp
      rw [addToBuckets, modifyAt_length]
      exact hin p (List.mem_cons_of_mem _ hp)
    show (fillBuckets (addToBuckets buckets c row) rest).getD j [] = _
    rw [ih (addToBuckets buckets c row) hrest]
    by_cases hcj : c = j
    · subst hcj
      rw [addToBuckets, modifyAt_getD_eq _ _ _ _
        (hin (c, row) (List.mem_cons_self _ _))]
      simp [List.filter_cons]
    · rw [addToBuckets, modifyAt_getD_ne _ _ _ _ _ hcj]
      simp [List.filter_cons, hcj]

theorem detRows_class_mem (inst : DetInstances) (p : Nat × List ℚ)
    (hp : p ∈ detRows inst) : p.1 ∈ inst.predClasses := by
  simp only [detRows, List.mem_map] at hp
  obtain ⟨q, hq, rfl⟩ := hp
  exact (List.of_mem_zip hq).1

theorem fillBuckets_classRows (inst : DetInstances) (numClasses : Nat)
    (hc : ∀ c ∈ inst.predClasses, c < numClasses) :
    fillBuckets (List.replicate numClasses []) (detRows inst)
      = (List.range numClasses).map (classRows inst) := by
  have hin : ∀ p ∈ detRows inst,
      p.1 < (List.replicate numClasses ([] : List (List ℚ))).length := by
    intro p hp
    rw [List.length_replicate]
    exact hc p.1 (detRows_class_mem inst p hp)
  apply List.ext_getElem
  · rw [fillBuckets_length, List.length_replicate, List.length_map,
      List.length_range]
  · intro i h1 h2
    have hi : i < numClasses := by
      simpa [fillBuckets_length] using h1
    have hL : (fillBuckets (List.replicate numClasses [])
        (detRows inst))[i] = (fillBuckets (List.replicate numClasses [])
        (detRows inst)).getD i [] := by
      rw [List.getD_eq_getElem _ _ h1]
    rw [hL, fillBuckets_getD (detRows inst) _ i hin]
    have hrep : (List.replicate numClasses ([] : List (List ℚ))).getD i []
        = [] := by
      rw [List.getD_eq_getElem _ _ (by simpa using hi)]
      exact List.getElem_replicate _ _
    rw [hrep]
    simp [classRows]

/-- C10: the Detectron2 formatter returns one element per class index in
order; element j holds, in instance order, one five-value row (four box
coordinates then the score) for each instance predicted for class j, and
a class with no predicted instances yields zero rows with numpy width
numClasses instead of 5. -/
theorem formatDetectron2_shape (inst : DetInstances) (numClasses : Nat)
    (hc : ∀ c ∈ inst.predClasses, c < numClasses)
    (hb : ∀ b ∈ inst.boxes, b.length = 4) :
    formatDetectron2Predictions inst numClasses
      = (List.range numClasses).map (fun (j : Nat) =>
          if classRows inst j = [] then ([], numClasses)
          else (classRows inst j, 5))
    ∧ (∀ j : Nat, ∀ r ∈ classRows inst j, r.length = 5) := by
  constructor
  · rw [formatDetectron2Predictions, fillBuckets_classRows inst numClasses hc,
      List.map_map]
    rfl
  · intro j r hr
    simp only [classRows, List.mem_map] at hr
    obtain ⟨p, hp, rfl⟩ := hr
    have hpd : p ∈ detRows inst := List.mem_of_mem_filter hp
    simp only [detRows, List.mem_map] at hpd
    obtain ⟨q, hq, rfl⟩ := hpd
    have hbox : q.2.1 ∈ inst.boxes := (List.of_mem_zip (List.of_mem_zip hq).2).1
    simp [hb q.2.1 hbox]

theorem formatDetectron2_shape_witness :
    formatDetectron2Predictions
        ⟨[1, 0, 1], [9/10, 8/10, 7/10],
         [[1, 2, 3, 4], [5, 6, 7, 8], [9, 10, 11, 12]]⟩ 3
      = (List.range 3).map (fun (j : Nat) =>
          if classRows ⟨[1, 0, 1], [9/10, 8/10, 7/10],
              [[1, 2, 3, 4], [5, 6, 7, 8], [9, 10, 11, 12]]⟩ j = []
          then ([], 3)
          else (classRows ⟨[1, 0, 1], [9/10, 8/10, 7/10],
              [[1, 2, 3, 4], [5, 6, 7, 8], [9, 10, 11, 12]]⟩ j, 5))
    ∧ (∀ j : Nat, ∀ r ∈ classRows ⟨[1, 0, 1], [9/10, 8/10, 7/10],
        [[1, 2, 3, 4], [5, 6, 7, 8], [9, 10, 11, 12]]⟩ j, r.length = 5) :=
  formatDetectron2_shape _ 3 (by decide) (by decide)

theorem foldStart_closed (n k : Nat) :
    ∀ i, foldStart n k i = i * (n / k) + min i (n % k) := by
  intro i
  induction i with
  | zero => simp [foldStart]
  | succ m ih =>
    simp only [foldStart, foldSize, ih, Nat.succ_mul]
    by_cases h : m < n % k <;> simp [h] <;> omega

theorem foldStart_top (n k : Nat) (hk : 0 < k) : foldStart n k k = n := by
  rw [foldStart_closed n k k,
    Nat.min_eq_right (Nat.le_of_lt (Nat.mod_lt n hk))]
  exact Nat.div_add_mod n k

theorem foldStart_le (n k i j : Nat) (h : i ≤ j) :
    foldStart n k i ≤ foldStart n k j := by
  induction j with
  | zero =>
    have : i = 0 := Nat.le_zero.mp h
    simp [this]
  | succ m ih =>
    rcases Nat.lt_or_ge i (m + 1) with h2 | h2
    · exact Nat.le_trans (ih (by omega)) (Nat.le_add_right _ _)
    · have : i = m + 1 := by omega
      simp [this]

theorem foldCover (n k : Nat) :
    ∀ m x, x < foldStart n k m →
      ∃ i, i < m ∧ foldStart n k i ≤ x ∧ x < foldStart n k (i + 1) := by
  intro m
  induction m with
  | zero => intro x hx; simp [foldStart] at hx
  | succ m ih =>
    intro x hx
    by_cases h : x < foldStart n k m
    · obtain ⟨i, h1, h2, h3⟩ := ih x h
      exact ⟨i, by omega, h2, h3⟩
    · exact ⟨m, by omega, by omega, hx⟩

/-- C8: the deterministic unshuffled k-fold split assigns every dataset
index to exactly one of the k validation folds: the folds are pairwise
disjoint and together cover all n indices, and membership is a pure
function of the index and the fold geometry. -/
theorem kfold_partition (n k x : Nat) (hk : 0 < k) (hx : x < n) :
    ∃! i : Nat, i < k ∧ inFold n k i x = true := by
  obtain ⟨i, hik, h1, h2⟩ :=
    foldCover n k k x (by rw [foldStart_top n k hk]; exact hx)
  refine ⟨i, ⟨hik, ?_⟩, ?_⟩
  · simp [inFold, h1, h2]
  · intro y hy
    obtain ⟨hyk, hyf⟩ := hy
    have hy1 : foldStart n k y ≤ x ∧ x < foldStart n k (y + 1) := by
      simpa [inFold] using hyf
    rcases Nat.lt_trichotomy y i with h | h | h
    · exfalso
      have := foldStart_le n k (y + 1) i (by omega)
      omega
    · exact h
    · exfalso
      have := foldStart_le n k (i + 1) y (by omega)
      omega

theorem kfold_partition_witness :
    ∃! i : Nat, i < 2 ∧ inFold 5 2 i 3 = true :=
  kfold_partition 5 2 3 (by decide) (by decide)

theorem zipWith_add_sum (a b : List ℚ) (h : a.length = b.length) :
    (List.zipWith (· + ·) a b).sum = a.sum + b.sum := by
  induction a generalizing b with
  | nil =>
    cases b with
    | nil => simp
    | cons x xs => simp at h
  | cons x xs ih =>
    cases b with
    | nil => simp at h
    | cons y ys =>
      have h2 : xs.length = ys.length := by simpa using h
      simp [ih ys h2]
      ring

theorem vecSum_length (vs : List (List ℚ)) (L : Nat)
    (hL : ∀ v ∈ vs, v.length = L) (hne : vs ≠ []) :
    (vecSum vs).length = L := by
  induction vs with
  | nil => exact absurd rfl hne
  | cons v t ih =>
    cases t with
    | nil => simpa using hL v (List.mem_cons_self _ _)
    | cons w ws =>
      have h1 : (vecSum (w :: ws)).length = L := by
        apply ih
        · intro u hu
          exact hL u (List.mem_cons_of_mem _ hu)
        · simp
      have h2 : v.length = L := hL v (List.mem_cons_self _ _)
      show (List.zipWith (· + ·) v (vecSum (w :: ws))).length = L
      rw [List.length_zipWith, h1, h2, Nat.min_self]

theorem vecSum_sum (vs : List (List ℚ)) (L : Nat)
    (hL : ∀ v ∈ vs, v.length = L) :
    (vecSum vs).sum = (vs.map List.sum).sum := by
  induction vs with
  | nil => simp [vecSum]
  | cons v t ih =>
    cases t with
    | nil => simp [vecSum]
    | cons w ws =>
      have htl : ∀ u ∈ w :: ws, u.length = L := by
        intro u hu
        exact hL u (List.mem_cons_of_mem _ hu)
      have hlen : v.length = (vecSum (w :: ws)).length := by
        rw [vecSum_length (w :: ws) L htl (by simp)]
        exact hL v (List.mem_cons_self _ _)
      show (List.zipWith (· + ·) v (vecSum (w :: ws))).sum = _
      rw [zipWith_add_sum v _ hlen, ih htl]
      simp

theorem avgVec_sum (vs : List (List ℚ)) (L : Nat) (hne : vs ≠ [])
    (hL : ∀ v ∈ vs, v.length = L) (h1 : ∀ v ∈ vs, v.sum = 1) :
    (avgVec vs).sum = 1 := by
  unfold avgVec
  rw [sum_map_div, vecSum_sum vs L hL]
  have hmap : vs.map List.sum = List.replicate vs.length 1 := by
    rw [List.eq_replicate_iff]
    constructor
    · simp
    · intro b hb
      simp only [List.mem_map] at hb
      obtain ⟨v, hv, rfl⟩ := hb
      exact h1 v hv
  rw [hmap, List.sum_replicate, nsmul_eq_mul, mul_one]
  have hlen : (vs.length : ℚ) ≠ 0 := by
    simpa using hne
  exact div_self hlen

theorem spansFrom_length (c : Nat) (ns : List Nat) :
    (spansFrom c ns).length = ns.length := by
  induction ns generalizing c with
  | nil => rfl
  | cons n t ih => simp [spansFrom, ih]

theorem spansFrom_mem_width (c : Nat) (ns : List Nat) (sp : Nat × Nat)
    (hsp : sp ∈ spansFrom c ns) : ∃ n ∈ ns, sp.2 = sp.1 + n := by
  induction ns generalizing c with
  | nil => simp [spansFrom] at hsp
  | cons n t ih =>
    simp only [spansFrom, List.mem_cons] at hsp
    rcases hsp with h | h
    · exact ⟨n, List.mem_cons_self _ _, by simp [h]⟩
    · obtain ⟨m, hm, hw⟩ := ih (c + n) h
      exact ⟨m, List.mem_cons_of_mem _ hm, hw⟩

theorem spansFrom_mem_le (c : Nat) (ns : List Nat) (sp : Nat × Nat)
    (hsp : sp ∈ spansFrom c ns) : sp.2 ≤ c + ns.sum := by
  induction ns generalizing c with
  | nil => simp [spansFrom] at hsp
  | cons n t ih =>
    simp only [spansFrom, List.mem_cons] at hsp
    rcases hsp with h | h
    · subst h
      simp only [List.sum_cons]
      omega
    · have := ih (c + n) h
      simp only [List.sum_cons]
      omega

theorem coverPair {α : Type} (ns : List Nat) (qs : List α) (c p : Nat)
    (hlen : ns.length = qs.length) (hc : c ≤ p) (hp : p < c + ns.sum) :
    ∃ pr ∈ (spansFrom c ns).zip qs, pr.1.1 ≤ p ∧ p < pr.1.2 := by
  induction ns generalizing qs c with
  | nil => simp at hp; omega
  | cons n t ih =>
    cases qs with
    | nil => simp at hlen
    | cons q qt =>
      by_cases h : p < c + n
      · exact ⟨((c, c + n), q), by simp [spansFrom], hc, h⟩
      · have hlen2 : t.length = qt.length := by simpa using hlen
        have hp2 : p < (c + n) + t.sum := by
          simp at hp
          omega
        obtain ⟨pr, hpr, h1, h2⟩ := ih qt (c + n) hlen2 (by omega) hp2
        exact ⟨pr, by simp [spansFrom, hpr], h1, h2⟩

theorem contributors_sub (probs : List (List ℚ)) (tokens : List String)
    (w : Nat × Nat) (v : List ℚ) (hv : v ∈ contributorsOf probs tokens w) :
    v ∈ probs := by
  simp only [contributorsOf, List.mem_map] at hv
  obtain ⟨pr, hpr, rfl⟩ := hv
  exact (List.of_mem_zip (List.mem_of_mem_filter hpr)).2

theorem contributors_nonempty (probs : List (List ℚ))
    (tokens words : List String) (w : Nat × Nat)
    (hpt : probs.length = tokens.length)
    (htot : (tokens.map String.length).sum = (words.map String.length).sum)
    (hw : ∀ u ∈ words, 0 < u.length)
    (hmem : w ∈ wordSpans words) : contributorsOf probs tokens w ≠ [] := by
  obtain ⟨n, hn, hwid⟩ := spansFrom_mem_width 0 _ w hmem
  have hn0 : 0 < n := by
    simp only [List.mem_map] at hn
    obtain ⟨u, hu, rfl⟩ := hn
    exact hw u hu
  have hlt : w.1 < w.2 := by omega
  have hle : w.2 ≤ (tokens.map String.length).sum := by
    have := spansFrom_mem_le 0 _ w hmem
    omega
  obtain ⟨pr, hpr, h1, h2⟩ := coverPair (tokens.map String.length) probs 0 w.1
    (by simp [hpt]) (Nat.zero_le _) (by omega)
  apply List.ne_nil_of_mem (a := pr.2)
  simp only [contributorsOf, List.mem_map]
  refine ⟨pr, ?_, rfl⟩
  rw [List.mem_filter]
  refine ⟨hpr, ?_⟩
  simp only [overlapsB, Bool.and_eq_true, decide_eq_true_eq]
  omega

/-- C5: for every sentence, the aggregator produces exactly one output
row per original word; and when the token and word character streams have
equal total length, every word is nonempty, and every input subword row
is a probability vector (sums to 1, common length), every output row sums
to 1. -/
theorem getPredProbs_rows (L : Nat) (probs : List (List ℚ))
    (tokens words : List String)
    (hpt : probs.length = tokens.length)
    (htot : (tokens.map String.length).sum = (words.map String.length).sum)
    (hw : ∀ u ∈ words, 0 < u.length)
    (hsum : ∀ p ∈ probs, p.sum = 1)
    (hL : ∀ p ∈ probs, p.length = L) :
    (getPredProbs probs tokens words).length = words.length
    ∧ ∀ r ∈ getPredProbs probs tokens words, r.sum = 1 := by
  constructor
  · simp [getPredProbs, getPredProbsW, wordSpans, spansFrom_length]
  · intro r hr
    simp only [getPredProbs, getPredProbsW, if_neg (by simp : ¬ false = true),
      List.mem_map] at hr
    obtain ⟨w, hwmem, rfl⟩ := hr
    apply avgVec_sum _ L
    · exact contributors_nonempty probs tokens words w hpt htot hw hwmem
    · intro v hv
      exact hL v (contributors_sub probs tokens w v hv)
    · intro v hv
      exact hsum v (contributors_sub probs tokens w v hv)

theorem getPredProbs_rows_witness :
    (getPredProbs [[1, 0], [0, 1]] ["la", "mb"] ["lamb"]).length = 1
    ∧ ∀ r ∈ getPredProbs [[1, 0], [0, 1]] ["la", "mb"] ["lamb"],
        r.sum = 1 := by
  have h := getPredProbs_rows 2 [[1, 0], [0, 1]] ["la", "mb"] ["lamb"]
    (by decide) (by decide) (by decide) (by norm_num) (by decide)
  exact h

/-- C6: a subword whose character span overlaps a word boundary gives its
full probability vector to every word it overlaps: on the example, the
word before the boundary receives exactly the overlapping subword's
vector, the word after receives the unweighted mean of both of its
overlapping subwords' vectors, and the final word is unchanged; in
general every overlapping subword's vector appears whole among a word's
contributed vectors. -/
theorem subword_overlap_full_vector :
    (∀ v1 v2 v3 : List ℚ,
      getPredProbs [v1, v2, v3] ["(M", "IT", ")"] ["(", "MIT", ")"]
        = [v1, (List.zipWith (· + ·) v1 v2).map (fun x => x / 2), v3])
    ∧ (∀ (probs : List (List ℚ)) (tokens : List String)
        (pr : (Nat × Nat) × List ℚ) (w : Nat × Nat),
        pr ∈ (tokenSpans tokens).zip probs → overlapsB pr.1 w = true →
        pr.2 ∈ contributorsOf probs tokens w) := by
  constructor
  · intro v1 v2 v3
    simp [getPredProbs, getPredProbsW, contributorsOf, tokenSpans, wordSpans,
      spansFrom, overlapsB, avgVec, vecSum, String.length]
  · intro probs tokens pr w hpr hov
    simp only [contributorsOf, List.mem_map]
    refine ⟨pr, ?_, rfl⟩
    rw [List.mem_filter]
    exact ⟨hpr, hov⟩

theorem subword_overlap_full_vector_witness :
    getPredProbs [[1, 0], [0, 1], [1/2, 1/2]] ["(M", "IT", ")"]
        ["(", "MIT", ")"]
      = [[1, 0], (List.zipWith (· + ·) [1, 0] [0, 1]).map (fun x => x / 2),
         [1/2, 1/2]]
    ∧ [(1 : ℚ), 0] ∈ contributorsOf [[1, 0], [0, 1], [1/2, 1/2]]
        ["(M", "IT", ")"] (1, 4) :=
  ⟨subword_overlap_full_vector.1 [1, 0] [0, 1] [1/2, 1/2],
   subword_overlap_full_vector.2 [[1, 0], [0, 1], [1/2, 1/2]]
     ["(M", "IT", ")"] ((0, 2), [1, 0]) (1, 4) (by decide) (by decide)⟩

/-- C7: a word assembled from several consumed subwords receives by
default the unweighted elementwise arithmetic mean of their probability
vectors — lamb split into la and mb with vectors v1 and v2 yields
(v1 + v2) / 2 — and the default policy is uniform averaging: the
pipeline entry point is exactly the aggregator with the length-weighted
alternative switched off. -/
theorem multi_subword_uniform_mean :
    (∀ v1 v2 : List ℚ,
      getPredProbs [v1, v2] ["la", "mb"] ["lamb"]
        = [(List.zipWith (· + ·) v1 v2).map (fun x => x / 2)])
    ∧ getPredProbs = getPredProbsW false := by
  constructor
  · intro v1 v2
    simp [getPredProbs, getPredProbsW, contributorsOf, tokenSpans, wordSpans,
      spansFrom, overlapsB, avgVec, vecSum, String.length]
  · rfl
